import Mathlib

/-!
# htmltomd: the selection / filter / convert / rewrite pipeline

A shallow embedding of `src/main.go`.  Go strings are sequences of code units and are
embedded as `List Char`; every pattern the program searches for is ASCII, so searching by
code unit and searching by character find the same positions.
-/

namespace HtmlToMd

/-- A Go string. -/
abbrev Str := List Char

/-! ## The `strings` functions the program calls -/

/-- Go's `strings.HasPrefix(s, p)`. -/
def hasPrefix : Str → Str → Bool
  | _, [] => true
  | [], _ :: _ => false
  | c :: s, d :: p => c == d && hasPrefix s p

/-- The offset of the first occurrence of `sep` in `s`, if there is one. -/
def firstOcc : Str → Str → Option Nat
  | [], sep => if sep.isEmpty then some 0 else none
  | c :: s, sep =>
    if hasPrefix (c :: s) sep then some 0
    else (firstOcc s sep).map (· + 1)

/-- Go's `strings.Index(s, sep)`: the offset of the first occurrence, or `-1`. -/
def index (s sep : Str) : Int :=
  match firstOcc s sep with
  | none => -1
  | some i => (i : Int)

/-- Go's `strings.Contains(s, sub)`, which is `Index(s, sub) >= 0`. -/
def contains (s sub : Str) : Bool := decide (index s sub ≥ 0)

/-- Go's `strings.Replace(s, old, new, 1)`: the first occurrence of `old` is replaced. -/
def replaceFirst (s old new : Str) : Str :=
  match firstOcc s old with
  | none => s
  | some i => s.take i ++ new ++ s.drop (i + old.length)

/-- The slice expression `s[i:j]`. -/
def slice (s : Str) (i j : Nat) : Str := (s.drop i).take (j - i)

/-- Go's `strings.Split(s, "\n")`. -/
def splitLines : Str → List Str
  | [] => [[]]
  | c :: s =>
    if c = '\n' then [] :: splitLines s
    else
      match splitLines s with
      | [] => [[c]]
      | l :: ls => (c :: l) :: ls

/-- Go's `strings.Join(lines, "\n")`. -/
def joinLines : List Str → Str
  | [] => []
  | [l] => l
  | l :: l' :: ls => l ++ '\n' :: joinLines (l' :: ls)

/-- Go's `strings.TrimSuffix(s, suffix)`. -/
def trimSuffix (s suffix : Str) : Str :=
  if suffix.isSuffixOf s then s.take (s.length - suffix.length) else s

/-- Go's `filepath.Ext` scans from the end of the name: it stops at a path separator and
returns the suffix that starts at the last dot. `acc` is the part already scanned. -/
def extScan : Str → Str → Str
  | [], _ => []
  | c :: r, acc =>
    if c = '/' then []
    else if c = '.' then c :: acc
    else extScan r (c :: acc)

/-- Go's `filepath.Ext(path)`, with `/` as the path separator. -/
def ext (path : Str) : Str := extScan path.reverse []

/-! ## The `net/url` package

`net/url` is a library, not part of the repository: the operations the program calls
are parameters of the embedding. -/

/-- The fields of `url.URL`. -/
structure URL where
  Scheme : Str
  Opaque : Str
  User : Str
  Host : Str
  Path : Str
  RawQuery : Str
  Fragment : Str
  deriving DecidableEq, Repr

/-- The operations of `net/url` the program uses: `parse` is `url.Parse` (`none` when it
returns an error), `resolveReference` is `(*URL).ResolveReference` on a receiver that is
a URL, `resolveFromNil` is the same method called on the nil pointer (`none` when the
call dereferences nil and the goroutine aborts), and `render` is `(*URL).String`. -/
structure NetURL where
  parse : Str → Option URL
  resolveReference : URL → URL → URL
  resolveFromNil : URL → Option URL
  render : URL → Str

/-! ## Link rewriting (`src/main.go`, lines 129-156) -/

/-- The function `resolveRelativeURL`; `none` is the abort of a nil dereference. -/
def resolveRelativeURL (lib : NetURL) (baseURL : Option URL) (relPath : Str) : Option Str :=
  match lib.parse relPath with
  | none => some relPath
  | some relURL =>
    match baseURL with
    | none => (lib.resolveFromNil relURL).map lib.render
    | some base => some (lib.render (lib.resolveReference base relURL))

/-- The body of the loop of `processRelativeLinks`: the new value of `lines[i]`. -/
def rewriteLine (lib : NetURL) (parsedBaseURL : Option URL) (line : Str) : Option Str :=
  if contains line [']', '('] &&
      (contains line ['.', '.', '/'] || contains line ['.', '/']) then
    let startIdx := index line [']', '('] + 2
    let endIdx := index (line.drop startIdx.toNat) [')']
    if endIdx ≠ -1 then
      let link := slice line startIdx.toNat (startIdx + endIdx).toNat
      if hasPrefix link ['.', '.', '/'] || hasPrefix link ['.', '/'] then
        (resolveRelativeURL lib parsedBaseURL link).map
          (fun absoluteURL => replaceFirst line link absoluteURL)
      else some line
    else some line
  else some line

/-- The loop of `processRelativeLinks` over the lines, stopped by an abort. -/
def rewriteLines (lib : NetURL) (parsedBaseURL : Option URL) : List Str → Option (List Str)
  | [] => some []
  | line :: rest =>
    match rewriteLine lib parsedBaseURL line with
    | none => none
    | some line' => (rewriteLines lib parsedBaseURL rest).map (line' :: ·)

/-- The function `processRelativeLinks(markdown, baseURL)`. The error of
`url.Parse(baseURL)` is dropped, so an unparseable base is the nil pointer. -/
def processRelativeLinks (lib : NetURL) (markdown baseURL : Str) : Option Str :=
  let lines := splitLines markdown
  let parsedBaseURL := lib.parse baseURL
  (rewriteLines lib parsedBaseURL lines).map joinLines

/-! ## Filename derivation (`src/main.go`, lines 107-117) -/

/-- Go's `strings.ReplaceAll(s, "/", "_")`. -/
def slashesToUnderscores (s : Str) : Str := s.map (fun c => if c = '/' then '_' else c)

/-- The function given to `strings.Map`. -/
def safeRune (r : Char) : Char := if r = '?' ∨ r = '#' ∨ r = ':' then '_' else r

/-- Lines 107-117: the filename of a parsed URL. -/
def filenameOf (parsedURL : URL) : Str :=
  let filename := parsedURL.Host ++ slashesToUnderscores parsedURL.Path
  let filename := if filename = [] then "index".toList else filename
  let filename := trimSuffix filename (ext filename) ++ ".md".toList
  filename.map safeRune

/-! ## The document and its selections (`goquery`, `cascadia`, `x/net/html`)

The parsed document is a tree of `html.Node` values linked by `FirstChild` and
`NextSibling`.  A `Forest` is such a chain of siblings; the `id` of an element stands for
the address of its node, which is how a selection refers to it. -/

/-- A chain of sibling nodes, each element with the chain of its children. -/
inductive Forest where
  | nil : Forest
  | text (data : Str) (next : Forest) : Forest
  | elem (id : Nat) (tag : Str) (cls : List Str) (kids : Forest) (next : Forest) : Forest
  deriving DecidableEq, Repr

/-- What a selector can see of an element: its name, its classes, whether it is the first
element among its siblings, and whether it has no element child and no text child other
than white space. -/
structure View where
  tag : Str
  cls : List Str
  first : Bool
  empty : Bool
  deriving DecidableEq, Repr

/-- The selectors considered: a string that does not compile (goquery turns it into a
matcher that matches nothing), type and class selectors, the pseudo-classes
`:first-child` and `:empty`, compound selectors, and the child and descendant
combinators. -/
inductive Sel where
  | invalid : Sel
  | tag (t : Str) : Sel
  | cls (c : Str) : Sel
  | firstChild : Sel
  | empty : Sel
  | both (a b : Sel) : Sel
  | child (p c : Sel) : Sel
  | desc (a d : Sel) : Sel
  deriving DecidableEq, Repr

/-- Some element of the chain of ancestors, nearest first, satisfies `p`. -/
def someAncestor (p : View → List View → Bool) : List View → Bool
  | [] => false
  | w :: ws => p w ws || someAncestor p ws

/-- The method `Matcher.Match`: whether the element seen as `v`, below the elements `anc`
(nearest first; the document node is not among them), matches the selector. -/
def Sel.matches : Sel → View → List View → Bool
  | .invalid, _, _ => false
  | .tag t, v, _ => decide (v.tag = t)
  | .cls c, v, _ => decide (c ∈ v.cls)
  | .firstChild, v, _ => v.first
  | .empty, v, _ => v.empty
  | .both a b, v, anc => a.matches v anc && b.matches v anc
  | .child p c, v, anc =>
    c.matches v anc &&
      (match anc with
       | [] => false
       | w :: ws => p.matches w ws)
  | .desc a d, v, anc => d.matches v anc && someAncestor a.matches anc

/-- White space as `strings.TrimSpace` sees it, which is `unicode.IsSpace`. -/
def isSpace (c : Char) : Bool :=
  decide (c.toNat ∈ [9, 10, 11, 12, 13, 32, 0x85, 0xA0, 0x1680, 0x2028, 0x2029, 0x202F,
    0x205F, 0x3000] ∨ (0x2000 ≤ c.toNat ∧ c.toNat ≤ 0x200A))

/-- What `:empty` asks of the children of an element: no element among them, and no text
but white space. -/
def Forest.isBlank : Forest → Bool
  | .nil => true
  | .text data next => data.all isSpace && next.isBlank
  | .elem _ _ _ _ _ => false

/-- The elements found by `Find`: those that match `m` and lie strictly below a node of
the selection. `sel` holds the selected nodes, `anc` the ancestors of the chain walked,
`inside` tells whether one of them is selected, and `first` whether no element of the
chain has been passed yet. -/
def findIn (m : Sel) (sel : List Nat) (anc : List View) (inside first : Bool) :
    Forest → List Nat
  | .nil => []
  | .text _ next => findIn m sel anc inside first next
  | .elem id tag cls kids next =>
    (if inside && m.matches ⟨tag, cls, first, kids.isBlank⟩ anc then [id] else []) ++
      findIn m sel (⟨tag, cls, first, kids.isBlank⟩ :: anc) (inside || decide (id ∈ sel))
        true kids ++
      findIn m sel anc inside false next

/-- A `goquery.Selection`: the document node (`doc.Selection`) or a list of elements. -/
inductive Selection where
  | document : Selection
  | nodes (ids : List Nat) : Selection
  deriving DecidableEq, Repr

/-- The call `selection.Find(m)` in the document `doc`. -/
def find (m : Sel) (s : Selection) (doc : Forest) : List Nat :=
  match s with
  | .document => findIn m [] [] true true doc
  | .nodes ids => findIn m ids [] false true doc

/-- The method `Remove`: every listed node is detached from its parent, with its subtree. -/
def remove (ids : List Nat) : Forest → Forest
  | .nil => .nil
  | .text data next => .text data (remove ids next)
  | .elem id tag cls kids next =>
    if id ∈ ids then remove ids next
    else .elem id tag cls (remove ids kids) (remove ids next)

/-- The children of the node `id`. -/
def kidsOf (id : Nat) : Forest → Option Forest
  | .nil => none
  | .text _ next => kidsOf id next
  | .elem i _ _ kids next =>
    if i = id then some kids
    else
      match kidsOf id kids with
      | some k => some k
      | none => kidsOf id next

/-- What `selection.Html()` renders: the children of the first node of the selection,
nothing when the selection is empty. -/
def content (s : Selection) (doc : Forest) : Forest :=
  match s with
  | .document => doc
  | .nodes [] => .nil
  | .nodes (id :: _) => (kidsOf id doc).getD .nil

/-- The loop of lines 77-82: `selection.Find(filter).Remove()` for each filter in turn. -/
def applyFilters (s : Selection) : List Sel → Forest → Forest
  | [], doc => doc
  | filter :: rest, doc => applyFilters s rest (remove (find filter s doc) doc)

/-! ## The handler (`src/main.go`, lines 27-126) -/

/-- The type `ConversionRequest`. -/
structure ConversionRequest where
  URL : Str
  Selector : Str
  Filters : List Str
  deriving DecidableEq, Repr

/-- The type `ConversionResponse`. -/
structure ConversionResponse where
  Filename : Str
  Content : Str
  deriving DecidableEq, Repr

/-- The incoming request as the handler reads it: the query parameters of a GET, the
outcome of decoding the JSON body of a POST (`none` when decoding fails), or another
method. -/
inductive Incoming where
  | get (url selector : Str) (filters : List Str) : Incoming
  | post (decoded : Option ConversionRequest) : Incoming
  | other : Incoming

/-- What the handler answers: `http.Error` with a status, the JSON response with status
200, or no answer because the goroutine aborted. -/
inductive Reply where
  | error (status : Nat) (message : Str) : Reply
  | ok (response : ConversionResponse) : Reply
  | aborted : Reply
  deriving DecidableEq, Repr

/-- The status code of a reply, when there is one. -/
def Reply.status : Reply → Option Nat
  | .error status _ => some status
  | .ok _ => some 200
  | .aborted => none

/-- The collaborators of the handler that lie outside the repository. -/
structure World where
  /-- The `net/url` package. -/
  net : NetURL
  /-- The body the network returns for a URL; `none` is a failed fetch. -/
  transport : Str → Option Str
  /-- The call `goquery.NewDocumentFromReader`. -/
  parseHTML : Str → Option Forest
  /-- The compilation of a selector string by goquery. -/
  compile : Str → Sel
  /-- The rendering by `html.Render` of a chain of nodes. -/
  renderHTML : Forest → Option Str
  /-- The call `converter.ConvertString`. -/
  toMarkdown : Str → Option Str

/-- The call `http.Get(url)`: the request is built first, which parses the URL with `url.Parse` and
fails when it does; only then is the network asked. -/
def httpGet (w : World) (url : Str) : Option Str :=
  match w.net.parse url with
  | none => none
  | some _ => w.transport url

/-- Lines 63-70: the selection the filters work on. -/
def select (w : World) (selector : Str) (doc : Forest) : Selection :=
  if selector ≠ [] then .nodes (find (w.compile selector) .document doc)
  else .document

/-- Lines 45-125: the handler once the request has been read. -/
def convert (w : World) (req : ConversionRequest) : Reply :=
  if req.URL = [] then .error 400 "URL is required".toList
  else
    match httpGet w req.URL with
    | none => .error 500 "Failed to fetch URL".toList
    | some body =>
      match w.parseHTML body with
      | none => .error 500 "Failed to parse HTML".toList
      | some doc =>
        let selection := select w req.Selector doc
        let doc := applyFilters selection (req.Filters.map w.compile) doc
        match w.renderHTML (content selection doc) with
        | none => .error 500 "Failed to extract filtered HTML".toList
        | some filteredHtml =>
          match w.toMarkdown filteredHtml with
          | none => .error 500 "Failed to convert to Markdown".toList
          | some markdown =>
            match processRelativeLinks w.net markdown req.URL with
            | none => .aborted
            | some markdown =>
              match w.net.parse req.URL with
              | none => .error 400 "Invalid URL".toList
              | some parsedURL => .ok ⟨filenameOf parsedURL, markdown⟩

/-- The function `convertHandler`. -/
def convertHandler (w : World) : Incoming → Reply
  | .get url selector filters => convert w ⟨url, selector, filters⟩
  | .post none => .error 400 "Invalid request body".toList
  | .post (some req) => convert w req
  | .other => .error 405 "Method not allowed".toList

/-! ## Vocabulary of the statements -/

/-- The link target the loop body extracts from a line: the text between the first `](`
and the first `)` after it. -/
def linkTarget (line : Str) : Option Str :=
  match firstOcc line [']', '('] with
  | none => none
  | some i =>
    match firstOcc (line.drop (i + 2)) [')'] with
    | none => none
    | some j => some ((line.drop (i + 2)).take j)

/-- Whether a string starts with `../` or `./`. -/
def isRelative (link : Str) : Bool :=
  hasPrefix link ['.', '.', '/'] || hasPrefix link ['.', '/']

/-- Filename derivation, lines 102-117: the URL is parsed and the filename built from
the result; `none` is the invalid-URL error. -/
def deriveFilename (lib : NetURL) (url : Str) : Option Str :=
  (lib.parse url).map filenameOf

/-- A selector that looks at names, classes and ancestors only: it uses neither
`:first-child` nor `:empty`. -/
def Sel.structureFree : Sel → Bool
  | .invalid => true
  | .tag _ => true
  | .cls _ => true
  | .firstChild => false
  | .empty => false
  | .both a b => a.structureFree && b.structureFree
  | .child p c => p.structureFree && c.structureFree
  | .desc a d => a.structureFree && d.structureFree

/-- The part of a selection that `Html()` reads: its first node. -/
def firstOnly : Selection → Selection
  | .document => .document
  | .nodes [] => .nodes []
  | .nodes (id :: _) => .nodes [id]

/-- Two views of elements with the same name and classes. -/
def sameLabel (v w : View) : Prop := v.tag = w.tag ∧ v.cls = w.cls

/-! ## Sample values of `net/url`

The answers of `net/url` at the URLs used in the examples of this file. -/

/-- The URL with the given scheme, host, path and query, and nothing else. -/
def mkURL (scheme host path query : String) : URL :=
  ⟨scheme.toList, [], [], host.toList, path.toList, query.toList, []⟩

/-- The package `net/url` at the URLs of the examples: `url.Parse` accepts the six URLs
listed and rejects `://x` (missing protocol scheme) and `./%zz` (invalid escape) like
every other string here; `ResolveReference` resolves `./a` and `../x.html` against
`https://ex.com/d/p.html`, and on the nil pointer it aborts for a reference without a
scheme; `String` writes scheme, host, path and query of a URL that has no opaque part,
user or fragment. -/
def exampleNet : NetURL where
  parse s :=
    if s = "https://ex.com/d/p.html".toList then some (mkURL "https" "ex.com" "/d/p.html" "")
    else if s = "https://ex.com/a/b?x=1".toList then some (mkURL "https" "ex.com" "/a/b" "x=1")
    else if s = "https://ex.com/".toList then some (mkURL "https" "ex.com" "/" "")
    else if s = "./a".toList then some (mkURL "" "" "./a" "")
    else if s = "../x.html".toList then some (mkURL "" "" "../x.html" "")
    else if s = "?x=1".toList then some (mkURL "" "" "" "x=1")
    else none
  resolveReference base ref :=
    if base = mkURL "https" "ex.com" "/d/p.html" "" ∧ ref = mkURL "" "" "./a" "" then
      mkURL "https" "ex.com" "/d/a" ""
    else if base = mkURL "https" "ex.com" "/d/p.html" "" ∧ ref = mkURL "" "" "../x.html" "" then
      mkURL "https" "ex.com" "/x.html" ""
    else ref
  resolveFromNil ref := if ref.Scheme = [] then none else some ref
  render u :=
    (if u.Scheme = [] then [] else u.Scheme ++ ":".toList) ++
      (if u.Host = [] then [] else "//".toList ++ u.Host) ++ u.Path ++
      (if u.RawQuery = [] then [] else "?".toList ++ u.RawQuery)

/-- A world for the examples: the sample `net/url`, a network that answers every URL
with the same page, and stand-ins for the HTML parser, the renderer and the converter. -/
def exampleWorld : World where
  net := exampleNet
  transport _ := some "<p>Hi</p>".toList
  parseHTML _ := some (.elem 1 "p".toList [] (.text "Hi".toList .nil) .nil)
  compile _ := .invalid
  renderHTML _ := some "<p>Hi</p>".toList
  toMarkdown _ := some "Hi".toList

/-- A page: `html` holding an empty `head` and a `body` with two paragraphs. -/
def examplePage : Forest :=
  .elem 1 "html".toList []
    (.elem 2 "head".toList [] .nil
      (.elem 3 "body".toList []
        (.elem 4 "p".toList [] (.text "one".toList .nil)
          (.elem 5 "p".toList [] (.text "two".toList .nil) .nil))
        .nil))
    .nil

/-- The selector `p:first-child`. -/
def firstParagraph : Sel := .both (.tag "p".toList) .firstChild

/-! ## Searching and replacing -/

theorem hasPrefix_iff (s p : Str) : hasPrefix s p = true ↔ p <+: s := by
  induction s generalizing p with
  | nil => cases p <;> simp [hasPrefix]
  | cons c s ih =>
    cases p with
    | nil => simp [hasPrefix]
    | cons d p =>
      simp only [hasPrefix, Bool.and_eq_true, beq_iff_eq, ih, List.cons_prefix_cons]
      constructor
      · rintro ⟨h, h'⟩; exact ⟨h.symm, h'⟩
      · rintro ⟨h, h'⟩; exact ⟨h.symm, h'⟩

theorem firstOcc_starts {s sep : Str} {i : Nat} (h : firstOcc s sep = some i) :
    sep <+: s.drop i ∧ i + sep.length ≤ s.length := by
  induction s generalizing i with
  | nil =>
    cases sep with
    | nil => simp [firstOcc] at h; subst h; simp
    | cons d p => simp [firstOcc] at h
  | cons c s ih =>
    unfold firstOcc at h
    split at h
    · rename_i hp
      injection h with h
      subst h
      have := (hasPrefix_iff _ _).1 hp
      exact ⟨by simpa using this, by simpa using this.length_le⟩
    · cases hj : firstOcc s sep with
      | none => simp [hj] at h
      | some j =>
        simp [hj] at h
        subst h
        have := ih hj
        exact ⟨by simpa using this.1, by simp; omega⟩

theorem firstOcc_le (s sep : Str) (k : Nat) (hk : k ≤ s.length) (h : sep <+: s.drop k) :
    ∃ i, firstOcc s sep = some i ∧ i ≤ k := by
  induction s generalizing k with
  | nil =>
    have : sep = [] := by simpa using h
    subst this
    exact ⟨0, by simp [firstOcc], Nat.zero_le _⟩
  | cons c s ih =>
    unfold firstOcc
    split
    · exact ⟨0, rfl, Nat.zero_le _⟩
    · rename_i hp
      cases k with
      | zero => exact absurd ((hasPrefix_iff _ _).2 (by simpa using h)) hp
      | succ k =>
        obtain ⟨i, hi, hik⟩ := ih k (by simpa using hk) (by simpa using h)
        exact ⟨i + 1, by simp [hi], by omega⟩

theorem firstOcc_isSome_iff (s sep : Str) : (firstOcc s sep).isSome = true ↔ sep <:+: s := by
  constructor
  · intro h
    obtain ⟨i, hi⟩ := Option.isSome_iff_exists.1 h
    exact (firstOcc_starts hi).1.isInfix.trans (List.drop_suffix i s).isInfix
  · rintro ⟨a, b, rfl⟩
    obtain ⟨i, hi, _⟩ := firstOcc_le (a ++ sep ++ b) sep a.length
      (by simp) (by simp [List.append_assoc])
    exact Option.isSome_iff_exists.2 ⟨i, hi⟩

theorem contains_iff (s sub : Str) : contains s sub = true ↔ sub <:+: s := by
  rw [← firstOcc_isSome_iff]
  unfold contains index
  cases firstOcc s sub <;> simp

theorem index_of_firstOcc {s sep : Str} {i : Nat} (h : firstOcc s sep = some i) :
    index s sep = (i : Int) := by
  simp [index, h]

theorem index_of_firstOcc_none {s sep : Str} (h : firstOcc s sep = none) :
    index s sep = -1 := by
  simp [index, h]

theorem replaceFirst_self (s old : Str) : replaceFirst s old old = s := by
  unfold replaceFirst
  cases h : firstOcc s old with
  | none => rfl
  | some i =>
    obtain ⟨t, ht⟩ := (firstOcc_starts h).1
    have h1 : s.drop (i + old.length) = t := by
      rw [← List.drop_drop, ← ht]; simp
    show s.take i ++ old ++ s.drop (i + old.length) = s
    rw [h1, List.append_assoc, ht, List.take_append_drop]

theorem replaceFirst_suffix {s old : Str} (new : Str) {k : Nat} (hk : k ≤ s.length)
    (h : old <+: s.drop k) : s.drop (k + old.length) <:+ replaceFirst s old new := by
  obtain ⟨i, hi, hik⟩ := firstOcc_le s old k hk h
  unfold replaceFirst
  rw [hi]
  exact (List.drop_suffix_drop_left s (by omega)).trans (List.suffix_append _ _)

theorem mem_replaceFirst {s old new : Str} {c : Char} (h : c ∈ replaceFirst s old new) :
    c ∈ s ∨ c ∈ new := by
  unfold replaceFirst at h
  split at h
  · exact Or.inl h
  · simp only [List.mem_append] at h
    rcases h with (h | h) | h
    · exact Or.inl (List.mem_of_mem_take h)
    · exact Or.inr h
    · exact Or.inl (List.mem_of_mem_drop h)

/-! ## Lines -/

theorem splitLines_ne_nil (s : Str) : splitLines s ≠ [] := by
  cases s with
  | nil => simp [splitLines]
  | cons c s =>
    unfold splitLines
    split
    · simp
    · split <;> simp

theorem splitLines_of_not_mem {s : Str} (h : '\n' ∉ s) : splitLines s = [s] := by
  induction s with
  | nil => rfl
  | cons c s ih =>
    have hc : c ≠ '\n' := fun e => h (by simp [e])
    have hs : '\n' ∉ s := fun e => h (List.mem_cons_of_mem _ e)
    simp [splitLines, hc, ih hs]

theorem splitLines_append {l rest : Str} (h : '\n' ∉ l) :
    splitLines (l ++ '\n' :: rest) = l :: splitLines rest := by
  induction l with
  | nil => simp [splitLines]
  | cons c l ih =>
    have hc : c ≠ '\n' := fun e => h (by simp [e])
    have hs : '\n' ∉ l := fun e => h (List.mem_cons_of_mem _ e)
    simp [splitLines, hc, ih hs]

theorem joinLines_splitLines (s : Str) : joinLines (splitLines s) = s := by
  induction s with
  | nil => rfl
  | cons c s ih =>
    unfold splitLines
    split
    · rename_i hc
      subst hc
      have hne := splitLines_ne_nil s
      cases hs : splitLines s with
      | nil => exact absurd hs hne
      | cons l ls => rw [hs] at ih; simp [joinLines, ih]
    · cases hs : splitLines s with
      | nil => exact absurd hs (splitLines_ne_nil s)
      | cons l ls =>
        rw [hs] at ih
        cases ls with
        | nil => simp [joinLines] at ih ⊢; exact ih
        | cons l' ls => simp [joinLines] at ih ⊢; exact ih

theorem splitLines_joinLines {ls : List Str} (hne : ls ≠ []) (h : ∀ l ∈ ls, '\n' ∉ l) :
    splitLines (joinLines ls) = ls := by
  induction ls with
  | nil => exact absurd rfl hne
  | cons l ls ih =>
    cases ls with
    | nil => simpa [joinLines] using splitLines_of_not_mem (h l (by simp))
    | cons l' ls =>
      have := ih (by simp) (fun x hx => h x (List.mem_cons_of_mem _ hx))
      simp only [joinLines]
      rw [splitLines_append (h l (by simp)), this]

theorem not_mem_of_mem_splitLines {s l : Str} (h : l ∈ splitLines s) : '\n' ∉ l := by
  induction s generalizing l with
  | nil => simp [splitLines] at h; subst h; simp
  | cons c s ih =>
    unfold splitLines at h
    split at h
    · rcases List.mem_cons.1 h with h | h
      · subst h; simp
      · exact ih h
    · rename_i hc
      cases hs : splitLines s with
      | nil => exact absurd hs (splitLines_ne_nil s)
      | cons l' ls =>
        rw [hs] at h ih
        rcases List.mem_cons.1 h with h | h
        · subst h
          intro hm
          rcases List.mem_cons.1 hm with e | e
          · exact hc e.symm
          · exact ih (List.mem_cons_self _ _) e
        · exact ih (List.mem_cons_of_mem _ h)

theorem mem_splitLines_sub {s l : Str} (h : l ∈ splitLines s) : l <:+: s := by
  induction s generalizing l with
  | nil => simp [splitLines] at h; subst h; exact List.infix_rfl
  | cons c s ih =>
    unfold splitLines at h
    split at h
    · rcases List.mem_cons.1 h with h | h
      · subst h; exact List.nil_infix
      · exact List.infix_cons (ih h)
    · cases hs : splitLines s with
      | nil => exact absurd hs (splitLines_ne_nil s)
      | cons l' ls =>
        rw [hs] at h ih
        rcases List.mem_cons.1 h with h | h
        · subst h
          have hj := joinLines_splitLines s
          rw [hs] at hj
          have hp : l' <+: s := by
            cases ls with
            | nil => simp [joinLines] at hj; subst hj; exact List.prefix_rfl
            | cons l'' ls => simp only [joinLines] at hj; exact ⟨_, hj⟩
          exact ((List.cons_prefix_cons).2 ⟨rfl, hp⟩).isInfix
        · exact List.infix_cons (ih (List.mem_cons_of_mem _ h))

/-! ## One line of `processRelativeLinks` -/

theorem contains_dotSlash_of_dotDotSlash {line : Str}
    (h : contains line ['.', '.', '/'] = true) : contains line ['.', '/'] = true := by
  rw [contains_iff] at h ⊢
  exact (show ['.', '/'] <:+: ['.', '.', '/'] from ⟨['.'], [], rfl⟩).trans h

theorem rewriteLine_of_not_bracket {lib : NetURL} {base : Option URL} {line : Str}
    (h : contains line [']', '('] = false) : rewriteLine lib base line = some line := by
  simp [rewriteLine, h]

theorem rewriteLine_of_not_dotSlash {lib : NetURL} {base : Option URL} {line : Str}
    (h : contains line ['.', '/'] = false) : rewriteLine lib base line = some line := by
  have h' : contains line ['.', '.', '/'] = false := by
    cases hc : contains line ['.', '.', '/'] with
    | false => rfl
    | true => rw [contains_dotSlash_of_dotDotSlash hc] at h; exact absurd h (by simp)
  simp [rewriteLine, h, h']

theorem rewriteLine_of_linkTarget_none {lib : NetURL} {base : Option URL} {line : Str}
    (h : linkTarget line = none) : rewriteLine lib base line = some line := by
  unfold linkTarget at h
  cases hi : firstOcc line [']', '('] with
  | none =>
    apply rewriteLine_of_not_bracket
    cases hc : contains line [']', '('] with
    | false => rfl
    | true =>
      have := (firstOcc_isSome_iff _ _).2 ((contains_iff _ _).1 hc)
      simp [hi] at this
  | some i =>
    rw [hi] at h
    cases hj : firstOcc (line.drop (i + 2)) [')'] with
    | some j => simp [hj] at h
    | none =>
      have h1 : (index line [']', '('] + 2).toNat = i + 2 := by
        rw [index_of_firstOcc hi]; omega
      unfold rewriteLine
      split
      · simp only [h1, index_of_firstOcc_none hj]
        simp
      · rfl

theorem rewriteLine_of_linkTarget {lib : NetURL} {base : Option URL} {line link : Str}
    (h : linkTarget line = some link) :
    rewriteLine lib base line =
      if isRelative link then
        (resolveRelativeURL lib base link).map (fun absoluteURL => replaceFirst line link absoluteURL)
      else some line := by
  unfold linkTarget at h
  cases hi : firstOcc line [']', '('] with
  | none => simp [hi] at h
  | some i =>
    rw [hi] at h
    cases hj : firstOcc (line.drop (i + 2)) [')'] with
    | none => simp [hj] at h
    | some j =>
      simp only [hj, Option.some.injEq] at h
      have h1 : (index line [']', '('] + 2).toNat = i + 2 := by
        rw [index_of_firstOcc hi]; omega
      have h2 : index (line.drop (i + 2)) [')'] = (j : Int) := index_of_firstOcc hj
      have h3 : (index line [']', '('] + 2 + (j : Int)).toNat = i + 2 + j := by
        rw [index_of_firstOcc hi]; omega
      have h4 : slice line (i + 2) (i + 2 + j) = link := by
        rw [← h]; simp [slice]
      have hb : contains line [']', '('] = true :=
        (contains_iff _ _).2 ((firstOcc_isSome_iff _ _).1 (by simp [hi]))
      have hinf : link <:+: line := by
        rw [← h]
        exact (List.take_prefix _ _).isInfix.trans (List.drop_suffix _ _).isInfix
      by_cases hr : isRelative link = true
      · have hd : contains line ['.', '/'] = true := by
          unfold isRelative at hr
          rcases Bool.or_eq_true_iff.1 hr with hp | hp
          · apply contains_dotSlash_of_dotDotSlash
            exact (contains_iff _ _).2 (((hasPrefix_iff _ _).1 hp).isInfix.trans hinf)
          · exact (contains_iff _ _).2 (((hasPrefix_iff _ _).1 hp).isInfix.trans hinf)
        have hr' := hr
        unfold isRelative at hr'
        unfold rewriteLine
        simp only [hb, hd, h1, h2, h3, h4, hr, hr', Bool.or_true, Bool.and_true, if_true]
        simp
      · have hr' := hr
        unfold isRelative at hr'
        unfold rewriteLine
        split
        · simp only [h1, h2, h3, h4, hr']
          simp [hr]
        · simp [hr]

/-! ## The whole text -/

theorem rewriteLine_some_base (lib : NetURL) (b : URL) (line : Str) :
    rewriteLine lib (some b) line = some line ∨
      ∃ link, linkTarget line = some link ∧ isRelative link = true ∧
        ((lib.parse link = none ∧ rewriteLine lib (some b) line = some line) ∨
          ∃ rel, lib.parse link = some rel ∧
            rewriteLine lib (some b) line =
              some (replaceFirst line link (lib.render (lib.resolveReference b rel)))) := by
  cases ht : linkTarget line with
  | none => exact Or.inl (rewriteLine_of_linkTarget_none ht)
  | some link =>
    rw [rewriteLine_of_linkTarget ht]
    by_cases hr : isRelative link = true
    · refine Or.inr ⟨link, rfl, hr, ?_⟩
      cases hp : lib.parse link with
      | none => exact Or.inl ⟨rfl, by simp [hr, resolveRelativeURL, hp, replaceFirst_self]⟩
      | some rel => exact Or.inr ⟨rel, rfl, by simp [hr, resolveRelativeURL, hp]⟩
    · exact Or.inl (by simp [hr])

theorem rewriteLine_isSome (lib : NetURL) (b : URL) (line : Str) :
    ∃ o, rewriteLine lib (some b) line = some o := by
  rcases rewriteLine_some_base lib b line with h | ⟨link, _, _, h | ⟨rel, _, h⟩⟩
  · exact ⟨_, h⟩
  · exact ⟨_, h.2⟩
  · exact ⟨_, h⟩

theorem rewriteLines_isSome (lib : NetURL) (b : URL) (ls : List Str) :
    ∃ outs, rewriteLines lib (some b) ls = some outs := by
  induction ls with
  | nil => exact ⟨[], rfl⟩
  | cons l ls ih =>
    obtain ⟨o, ho⟩ := rewriteLine_isSome lib b l
    obtain ⟨outs, houts⟩ := ih
    exact ⟨o :: outs, by simp [rewriteLines, ho, houts]⟩

theorem rewriteLines_spec {lib : NetURL} {base : Option URL} {ls outs : List Str}
    (h : rewriteLines lib base ls = some outs) :
    outs.length = ls.length ∧
      (∀ (i : Nat) (line : Str), ls[i]? = some line →
        ∃ o, outs[i]? = some o ∧ rewriteLine lib base line = some o) ∧
      (∀ o ∈ outs, ∃ l ∈ ls, rewriteLine lib base l = some o) := by
  induction ls generalizing outs with
  | nil =>
    simp [rewriteLines] at h
    subst h
    simp
  | cons l ls ih =>
    unfold rewriteLines at h
    cases ho : rewriteLine lib base l with
    | none => simp [ho] at h
    | some o =>
      cases hr : rewriteLines lib base ls with
      | none => simp [ho, hr] at h
      | some rest =>
        simp [ho, hr] at h
        subst h
        obtain ⟨h1, h2, h3⟩ := ih hr
        refine ⟨by simp [h1], ?_, ?_⟩
        · intro i line hi
          cases i with
          | zero => simp at hi; subst hi; exact ⟨o, by simp, ho⟩
          | succ i => simpa using h2 i line (by simpa using hi)
        · intro x hx
          rcases List.mem_cons.1 hx with hx | hx
          · subst hx; exact ⟨l, by simp, ho⟩
          · obtain ⟨l', hl', hl''⟩ := h3 x hx
            exact ⟨l', List.mem_cons_of_mem _ hl', hl''⟩

theorem rewriteLines_id {lib : NetURL} {base : Option URL} {ls : List Str}
    (h : ∀ l ∈ ls, rewriteLine lib base l = some l) : rewriteLines lib base ls = some ls := by
  induction ls with
  | nil => rfl
  | cons l ls ih =>
    have h1 := h l (by simp)
    have h2 := ih (fun x hx => h x (List.mem_cons_of_mem _ hx))
    simp [rewriteLines, h1, h2]

theorem linkTarget_of_firstOcc {line : Str} {i j : Nat}
    (hi : firstOcc line [']', '('] = some i)
    (hj : firstOcc (line.drop (i + 2)) [')'] = some j) :
    linkTarget line = some (slice line (i + 2) (i + 2 + j)) := by
  simp [linkTarget, hi, hj, slice]

theorem processRelativeLinks_lines (lib : NetURL) (markdown baseURL : Str) (b : URL)
    (hb : lib.parse baseURL = some b)
    (hnl : ∀ r rel, lib.parse r = some rel → '\n' ∉ lib.render (lib.resolveReference b rel)) :
    ∃ out, processRelativeLinks lib markdown baseURL = some out ∧
      ∀ (k : Nat) (line : Str), (splitLines markdown)[k]? = some line →
        ∃ o, (splitLines out)[k]? = some o ∧ rewriteLine lib (some b) line = some o := by
  obtain ⟨outs, houts⟩ := rewriteLines_isSome lib b (splitLines markdown)
  obtain ⟨h1, h2, h3⟩ := rewriteLines_spec houts
  have hne : outs ≠ [] := by
    intro e
    rw [e] at h1
    exact splitLines_ne_nil markdown (List.length_eq_zero.1 h1.symm)
  have hfree : ∀ o ∈ outs, '\n' ∉ o := by
    intro o ho
    obtain ⟨l, hl, hlo⟩ := h3 o ho
    have hl' := not_mem_of_mem_splitLines hl
    rcases rewriteLine_some_base lib b l with h | ⟨link, _, _, h | ⟨rel, hrel, h⟩⟩
    · rw [h] at hlo; injection hlo with e; rw [← e]; exact hl'
    · rw [h.2] at hlo; injection hlo with e; rw [← e]; exact hl'
    · rw [h] at hlo
      injection hlo with e
      rw [← e]
      intro hm
      rcases mem_replaceFirst hm with hm | hm
      · exact hl' hm
      · exact hnl link rel hrel hm
  refine ⟨joinLines outs, by simp [processRelativeLinks, hb, houts], ?_⟩
  intro k line hk
  rw [splitLines_joinLines hne hfree]
  exact h2 k line hk

theorem rewriteLine_keeps_tail {lib : NetURL} {b : URL} {line o : Str} {i j : Nat}
    (ho : rewriteLine lib (some b) line = some o)
    (hi : firstOcc line [']', '('] = some i)
    (hj : firstOcc (line.drop (i + 2)) [')'] = some j) :
    line.drop (i + 2 + j) <:+ o ∧
      (isRelative (slice line (i + 2) (i + 2 + j)) = false → o = line) := by
  rw [rewriteLine_of_linkTarget (linkTarget_of_firstOcc hi hj)] at ho
  by_cases hr : isRelative (slice line (i + 2) (i + 2 + j)) = true
  · have hlen : (slice line (i + 2) (i + 2 + j)).length = j := by
      have := (firstOcc_starts hj).2
      simp [slice] at this ⊢
      omega
    have hk : i + 2 ≤ line.length := by
      have := (firstOcc_starts hi).2
      simpa using this
    have hpre : slice line (i + 2) (i + 2 + j) <+: line.drop (i + 2) := by
      simpa [slice] using List.take_prefix j (line.drop (i + 2))
    rw [if_pos hr] at ho
    cases ha : resolveRelativeURL lib (some b) (slice line (i + 2) (i + 2 + j)) with
    | none => simp [ha] at ho
    | some a =>
      simp only [ha, Option.map_some', Option.some.injEq] at ho
      subst ho
      refine ⟨?_, ?_⟩
      · have := replaceFirst_suffix a hk hpre
        rwa [hlen] at this
      · intro hf
        rw [hf] at hr
        exact absurd hr (by simp)
  · rw [if_neg hr] at ho
    injection ho with e
    subst e
    exact ⟨List.drop_suffix _ _, fun _ => rfl⟩

theorem rewriteLine_of_unparseable {lib : NetURL} {base : Option URL} {line link : Str}
    (ht : linkTarget line = some link) (hp : lib.parse link = none) :
    rewriteLine lib base line = some line := by
  rw [rewriteLine_of_linkTarget ht]
  split
  · simp [resolveRelativeURL, hp, replaceFirst_self]
  · rfl

/-! ## The claims about link rewriting -/

/-- C1 (the code departs from it). On the line `[./a](./a)` with base
`https://ex.com/d/p.html` the extracted target is the text after `](`, and it resolves to
`https://ex.com/d/a`; `processRelativeLinks` nevertheless returns
`[https://ex.com/d/a](./a)`: the label was rewritten and the target left relative, where
the claim gives `[./a](https://ex.com/d/a)`. -/
theorem first_link_label_rewritten :
    linkTarget "[./a](./a)".toList = some "./a".toList ∧
      resolveRelativeURL exampleNet (exampleNet.parse "https://ex.com/d/p.html".toList)
        "./a".toList = some "https://ex.com/d/a".toList ∧
      processRelativeLinks exampleNet "[./a](./a)".toList "https://ex.com/d/p.html".toList =
        some "[https://ex.com/d/a](./a)".toList ∧
      processRelativeLinks exampleNet "[./a](./a)".toList "https://ex.com/d/p.html".toList ≠
        some "[./a](https://ex.com/d/a)".toList := by
  decide

/-- C7. For a base URL that parses, and a `net/url` whose rendered URLs hold no line
break, `processRelativeLinks` returns a text with as many lines as its input, in which
every line that lacks `](` or lacks `./` stands unchanged at its index; a text without
`./` is returned as it is. -/
theorem line_structure_preserved (lib : NetURL) (markdown baseURL : Str) (b : URL)
    (hb : lib.parse baseURL = some b)
    (hnl : ∀ r rel, lib.parse r = some rel → '\n' ∉ lib.render (lib.resolveReference b rel)) :
    ∃ out, processRelativeLinks lib markdown baseURL = some out ∧
      (splitLines out).length = (splitLines markdown).length ∧
      (∀ (i : Nat) (line : Str), (splitLines markdown)[i]? = some line →
        contains line [']', '('] = false ∨ contains line ['.', '/'] = false →
        (splitLines out)[i]? = some line) ∧
      (contains markdown ['.', '/'] = false → out = markdown) := by
  obtain ⟨outs, houts⟩ := rewriteLines_isSome lib b (splitLines markdown)
  obtain ⟨h1, h2, h3⟩ := rewriteLines_spec houts
  have hne : outs ≠ [] := by
    intro e
    rw [e] at h1
    exact splitLines_ne_nil markdown (List.length_eq_zero.1 h1.symm)
  have hfree : ∀ o ∈ outs, '\n' ∉ o := by
    intro o ho
    obtain ⟨l, hl, hlo⟩ := h3 o ho
    have hl' := not_mem_of_mem_splitLines hl
    rcases rewriteLine_some_base lib b l with h | ⟨link, _, _, h | ⟨rel, hrel, h⟩⟩
    · rw [h] at hlo; injection hlo with e; rw [← e]; exact hl'
    · rw [h.2] at hlo; injection hlo with e; rw [← e]; exact hl'
    · rw [h] at hlo
      injection hlo with e
      rw [← e]
      intro hm
      rcases mem_replaceFirst hm with hm | hm
      · exact hl' hm
      · exact hnl link rel hrel hm
  have hsplit := splitLines_joinLines hne hfree
  refine ⟨joinLines outs, by simp [processRelativeLinks, hb, houts], ?_, ?_, ?_⟩
  · rw [hsplit, h1]
  · intro i line hi hlack
    rw [hsplit]
    obtain ⟨o, ho, hlo⟩ := h2 i line hi
    have : rewriteLine lib (some b) line = some line := by
      rcases hlack with h | h
      · exact rewriteLine_of_not_bracket h
      · exact rewriteLine_of_not_dotSlash h
    rw [this] at hlo
    injection hlo with e
    rw [ho, e]
  · intro hno
    have hid : rewriteLines lib (some b) (splitLines markdown) = some (splitLines markdown) := by
      apply rewriteLines_id
      intro l hl
      apply rewriteLine_of_not_dotSlash
      cases hc : contains l ['.', '/'] with
      | false => rfl
      | true =>
        have := (contains_iff _ _).2
          (((contains_iff _ _).1 hc).trans (mem_splitLines_sub hl))
        rw [this] at hno
        exact absurd hno (by simp)
    rw [hid] at houts
    injection houts with e
    rw [← e, joinLines_splitLines]

/-- C9. When `relPath` does not parse as a URL reference, `resolveRelativeURL` returns
`relPath` itself, whatever the base (the nil base included); and for a base URL that
parses, and a `net/url` whose rendered URLs hold no line break, every line of the text
whose extracted link target is `relPath` stands unchanged at its index in the output of
`processRelativeLinks`, whatever the other lines are. -/
theorem unparseable_reference_failsoft (lib : NetURL) (relPath : Str)
    (h : lib.parse relPath = none) :
    (∀ base : Option URL, resolveRelativeURL lib base relPath = some relPath) ∧
      ∀ (markdown baseURL : Str) (b : URL), lib.parse baseURL = some b →
        (∀ r rel, lib.parse r = some rel →
          '\n' ∉ lib.render (lib.resolveReference b rel)) →
        ∃ out, processRelativeLinks lib markdown baseURL = some out ∧
          ∀ (k : Nat) (line : Str), (splitLines markdown)[k]? = some line →
            linkTarget line = some relPath → (splitLines out)[k]? = some line := by
  refine ⟨fun base => by simp [resolveRelativeURL, h], ?_⟩
  intro markdown baseURL b hb hnl
  obtain ⟨out, hout, hlines⟩ := processRelativeLinks_lines lib markdown baseURL b hb hnl
  refine ⟨out, hout, ?_⟩
  intro k line hk ht
  obtain ⟨o, ho, hlo⟩ := hlines k line hk
  rw [rewriteLine_of_unparseable ht h] at hlo
  injection hlo with e
  rw [ho, e]

/-- C10. For a base URL that parses, and a `net/url` whose rendered URLs hold no line
break: take any line of the text, at index `k`, whose first `](` is at offset `i` and is
followed by a `)`, the first one `j` characters after the `](`. The line at index `k` of
the output of `processRelativeLinks` ends with the input line from that `)` on, so later
links of the line keep their targets; and when the text between them does not start
with `./` or `../`, the line is returned unchanged. -/
theorem only_first_link_rewritten (lib : NetURL) (markdown baseURL : Str) (b : URL)
    (hb : lib.parse baseURL = some b)
    (hnl : ∀ r rel, lib.parse r = some rel → '\n' ∉ lib.render (lib.resolveReference b rel)) :
    ∃ out, processRelativeLinks lib markdown baseURL = some out ∧
      ∀ (k i j : Nat) (line : Str), (splitLines markdown)[k]? = some line →
        firstOcc line [']', '('] = some i →
        firstOcc (line.drop (i + 2)) [')'] = some j →
        ∃ o, (splitLines out)[k]? = some o ∧ line.drop (i + 2 + j) <:+ o ∧
          (isRelative (slice line (i + 2) (i + 2 + j)) = false → o = line) := by
  obtain ⟨out, hout, hlines⟩ := processRelativeLinks_lines lib markdown baseURL b hb hnl
  refine ⟨out, hout, ?_⟩
  intro k i j line hk hi hj
  obtain ⟨o, ho, hlo⟩ := hlines k line hk
  exact ⟨o, ho, rewriteLine_keeps_tail hlo hi hj⟩

theorem exampleNet_render_no_newline (r : Str) (rel : URL)
    (h : exampleNet.parse r = some rel) :
    '\n' ∉ exampleNet.render
      (exampleNet.resolveReference (mkURL "https" "ex.com" "/d/p.html" "") rel) := by
  simp only [exampleNet] at h
  split_ifs at h <;> (injection h with h; subst h; decide)

theorem line_structure_preserved_witness :
    exampleNet.parse "https://ex.com/d/p.html".toList =
        some (mkURL "https" "ex.com" "/d/p.html" "") ∧
      ∃ out, processRelativeLinks exampleNet "See\n[x](./a)\nend".toList
          "https://ex.com/d/p.html".toList = some out ∧
        (splitLines out).length = (splitLines "See\n[x](./a)\nend".toList).length ∧
        (∀ (i : Nat) (line : Str), (splitLines "See\n[x](./a)\nend".toList)[i]? = some line →
          contains line [']', '('] = false ∨ contains line ['.', '/'] = false →
          (splitLines out)[i]? = some line) ∧
        (contains "See\n[x](./a)\nend".toList ['.', '/'] = false →
          out = "See\n[x](./a)\nend".toList) :=
  ⟨by decide,
    line_structure_preserved exampleNet "See\n[x](./a)\nend".toList
      "https://ex.com/d/p.html".toList (mkURL "https" "ex.com" "/d/p.html" "") (by decide)
      exampleNet_render_no_newline⟩

theorem unparseable_reference_failsoft_witness :
    exampleNet.parse "./%zz".toList = none ∧
      resolveRelativeURL exampleNet none "./%zz".toList = some "./%zz".toList ∧
      ∃ out, processRelativeLinks exampleNet "[x](./a)\n[b](./%zz)\nend".toList
          "https://ex.com/d/p.html".toList = some out ∧
        (splitLines out)[1]? = some "[b](./%zz)".toList := by
  have h := unparseable_reference_failsoft exampleNet "./%zz".toList (by decide)
  refine ⟨by decide, h.1 none, ?_⟩
  obtain ⟨out, hout, hlines⟩ := h.2 "[x](./a)\n[b](./%zz)\nend".toList
    "https://ex.com/d/p.html".toList (mkURL "https" "ex.com" "/d/p.html" "") (by decide)
    exampleNet_render_no_newline
  exact ⟨out, hout, hlines 1 "[b](./%zz)".toList (by decide) (by decide)⟩

theorem only_first_link_rewritten_witness :
    ∃ out, processRelativeLinks exampleNet
        "top\n[a](./a) [b](./a)\n[c](x) [d](./a)".toList
        "https://ex.com/d/p.html".toList = some out ∧
      (∃ o, (splitLines out)[1]? = some o ∧ ") [b](./a)".toList <:+ o) ∧
      (splitLines out)[2]? = some "[c](x) [d](./a)".toList := by
  obtain ⟨out, hout, hlines⟩ := only_first_link_rewritten exampleNet
    "top\n[a](./a) [b](./a)\n[c](x) [d](./a)".toList "https://ex.com/d/p.html".toList
    (mkURL "https" "ex.com" "/d/p.html" "") (by decide) exampleNet_render_no_newline
  refine ⟨out, hout, ?_, ?_⟩
  · obtain ⟨o, ho, hs, _⟩ := hlines 1 2 3 "[a](./a) [b](./a)".toList
      (by decide) (by decide) (by decide)
    exact ⟨o, ho, hs⟩
  · obtain ⟨o, ho, _, hu⟩ := hlines 2 2 1 "[c](x) [d](./a)".toList
      (by decide) (by decide) (by decide)
    rw [ho, hu (by decide)]

/-! ## The claims about the filename -/

/-- C2 (the code departs from it). For `https://ex.com/a/b?x=1`, parsed into host
`ex.com` and path `/a/b`, host and path join into `ex.com_a_b`; `filepath.Ext` takes
`.com_a_b` for its extension, and the filename is `ex.md`, not `ex.com_a_b.md`. -/
theorem filename_loses_path :
    exampleNet.parse "https://ex.com/a/b?x=1".toList =
        some (mkURL "https" "ex.com" "/a/b" "x=1") ∧
      ext "ex.com_a_b".toList = ".com_a_b".toList ∧
      deriveFilename exampleNet "https://ex.com/a/b?x=1".toList = some "ex.md".toList ∧
      deriveFilename exampleNet "https://ex.com/a/b?x=1".toList ≠
        some "ex.com_a_b.md".toList := by
  decide

/-- C3, as claimed, fails: for `https://ex.com/`, parsed into host `ex.com` and path `/`,
host and path join into `ex.com_`, which is not empty, and the filename is not
`index.md`. -/
theorem root_url_is_not_index :
    exampleNet.parse "https://ex.com/".toList = some (mkURL "https" "ex.com" "/" "") ∧
      (mkURL "https" "ex.com" "/" "").Host ++
          slashesToUnderscores (mkURL "https" "ex.com" "/" "").Path = "ex.com_".toList ∧
      deriveFilename exampleNet "https://ex.com/".toList ≠ some "index.md".toList := by
  decide

/-- C3, amended. The filename is `index.md` when host and path of the parsed URL are both
empty. -/
theorem index_when_host_and_path_empty (u : URL) (hh : u.Host = []) (hp : u.Path = []) :
    filenameOf u = "index.md".toList := by
  simp only [filenameOf, hh, hp, slashesToUnderscores]
  decide

theorem index_when_host_and_path_empty_witness :
    deriveFilename exampleNet "?x=1".toList = some (filenameOf (mkURL "" "" "" "x=1")) ∧
      filenameOf (mkURL "" "" "" "x=1") = "index.md".toList :=
  ⟨by decide, index_when_host_and_path_empty (mkURL "" "" "" "x=1") rfl rfl⟩

theorem safeRune_ne (c : Char) : safeRune c ≠ '?' ∧ safeRune c ≠ '#' ∧ safeRune c ≠ ':' := by
  unfold safeRune
  split
  · decide
  · rename_i h
    simp only [not_or] at h
    exact h

/-- C6. For every parsed URL, whatever its host and path, the filename is not empty, ends
with `.md`, and holds none of `?`, `#`, `:`. -/
theorem filename_safe (u : URL) :
    filenameOf u ≠ [] ∧ ".md".toList <:+ filenameOf u ∧
      '?' ∉ filenameOf u ∧ '#' ∉ filenameOf u ∧ ':' ∉ filenameOf u := by
  have hsuf : ".md".toList <:+ filenameOf u := by
    simp only [filenameOf, List.map_append]
    exact List.suffix_append _ _
  have hno : ∀ c ∈ filenameOf u, c ≠ '?' ∧ c ≠ '#' ∧ c ≠ ':' := by
    intro c hc
    simp only [filenameOf, List.mem_map] at hc
    obtain ⟨x, _, rfl⟩ := hc
    exact safeRune_ne x
  refine ⟨?_, hsuf, fun h => (hno _ h).1 rfl, fun h => (hno _ h).2.1 rfl,
    fun h => (hno _ h).2.2 rfl⟩
  intro e
  rw [e] at hsuf
  exact absurd (List.suffix_nil.1 hsuf) (by decide)

/-! ## The claim about an unparseable URL -/

/-- C5 (the code departs from it). A request whose URL is not empty and does not parse
is answered with status 500, `Failed to fetch URL`, whatever the network would return:
`http.Get` fails on it before line 102 can answer 400. -/
theorem unparseable_url_is_500 (w : World) (req : ConversionRequest)
    (hne : req.URL ≠ []) (hp : w.net.parse req.URL = none) :
    convert w req = .error 500 "Failed to fetch URL".toList ∧
      (convert w req).status ≠ some 400 := by
  have : convert w req = .error 500 "Failed to fetch URL".toList := by
    simp [convert, hne, httpGet, hp]
  rw [this]
  exact ⟨rfl, by decide⟩

theorem unparseable_url_is_500_witness :
    convertHandler exampleWorld (.get "://x".toList [] []) =
        .error 500 "Failed to fetch URL".toList ∧
      (convertHandler exampleWorld (.get "://x".toList [] [])).status ≠ some 400 :=
  unparseable_url_is_500 exampleWorld ⟨"://x".toList, [], []⟩ (by decide) (by decide)

/-! ## Filters -/

theorem someAncestor_congr {p q : View → List View → Bool} {anc anc' : List View}
    (h : List.Forall₂ sameLabel anc anc')
    (hpq : ∀ v v' ws ws', sameLabel v v' → List.Forall₂ sameLabel ws ws' → p v ws = q v' ws') :
    someAncestor p anc = someAncestor q anc' := by
  induction h with
  | nil => rfl
  | cons hv _ ih => simp only [someAncestor, hpq _ _ _ _ hv (by assumption), ih]

theorem matches_congr {m : Sel} (hm : m.structureFree = true) :
    ∀ {v v' : View} {anc anc' : List View}, sameLabel v v' →
      List.Forall₂ sameLabel anc anc' → m.matches v anc = m.matches v' anc' := by
  induction m with
  | invalid => intros; rfl
  | tag t => intro v v' _ _ hv _; simp [Sel.matches, hv.1]
  | cls c => intro v v' _ _ hv _; simp [Sel.matches, hv.2]
  | firstChild => simp [Sel.structureFree] at hm
  | empty => simp [Sel.structureFree] at hm
  | both a b iha ihb =>
    simp only [Sel.structureFree, Bool.and_eq_true] at hm
    intro v v' anc anc' hv ha
    simp only [Sel.matches, iha hm.1 hv ha, ihb hm.2 hv ha]
  | child p c ihp ihc =>
    simp only [Sel.structureFree, Bool.and_eq_true] at hm
    intro v v' anc anc' hv ha
    simp only [Sel.matches, ihc hm.2 hv ha]
    cases ha with
    | nil => rfl
    | cons hw hws => simp only [ihp hm.1 hw hws]
  | desc a d iha ihd =>
    simp only [Sel.structureFree, Bool.and_eq_true] at hm
    intro v v' anc anc' hv ha
    simp only [Sel.matches, ihd hm.2 hv ha]
    rw [someAncestor_congr ha (fun _ _ _ _ h1 h2 => iha hm.1 h1 h2)]

theorem findIn_remove_nil {m : Sel} (hm : m.structureFree = true) (sel R : List Nat)
    (F : Forest) :
    ∀ (anc anc' : List View) (inside first first' : Bool),
      List.Forall₂ sameLabel anc anc' →
      (∀ x ∈ findIn m sel anc inside first F, x ∈ R) →
      findIn m sel anc' inside first' (remove R F) = [] := by
  induction F with
  | nil => intros; rfl
  | text data next ih =>
    intro anc anc' inside first first' ha h
    simp only [remove, findIn]
    exact ih anc anc' inside first first' ha (by simpa [findIn] using h)
  | elem id tag cls kids next ihk ihn =>
    intro anc anc' inside first first' ha h
    simp only [findIn, List.mem_append] at h
    have hnext := ihn anc anc' inside false
    by_cases hid : id ∈ R
    · simp only [remove, hid, if_true]
      exact ihn anc anc' inside false first' ha (fun x hx => h x (Or.inr hx))
    · simp only [remove, hid, if_false, findIn]
      have hv : sameLabel ⟨tag, cls, first, kids.isBlank⟩
          ⟨tag, cls, first', (remove R kids).isBlank⟩ := ⟨rfl, rfl⟩
      have hhead : (inside && m.matches ⟨tag, cls, first', (remove R kids).isBlank⟩ anc')
          = false := by
        cases hc : (inside && m.matches ⟨tag, cls, first', (remove R kids).isBlank⟩ anc') with
        | false => rfl
        | true =>
          rw [← matches_congr hm hv ha] at hc
          exact absurd (h id (Or.inl (Or.inl (by simp [hc])))) hid
      rw [hhead]
      rw [ihk (⟨tag, cls, first, kids.isBlank⟩ :: anc)
          (⟨tag, cls, first', (remove R kids).isBlank⟩ :: anc') (inside || decide (id ∈ sel))
          true true (List.Forall₂.cons hv ha) (fun x hx => h x (Or.inl (Or.inr hx))),
        hnext false ha (fun x hx => h x (Or.inr hx))]
      rfl

theorem find_remove_nil {m : Sel} (hm : m.structureFree = true) (s : Selection)
    (R : List Nat) (doc : Forest) (h : ∀ x ∈ find m s doc, x ∈ R) :
    find m s (remove R doc) = [] := by
  cases s with
  | document => exact findIn_remove_nil hm [] R doc [] [] true true true List.Forall₂.nil h
  | nodes ids => exact findIn_remove_nil hm ids R doc [] [] false true true List.Forall₂.nil h

theorem find_applyFilters_nil {m : Sel} (hm : m.structureFree = true) (s : Selection)
    (filters : List Sel) :
    ∀ doc : Forest, find m s doc = [] → find m s (applyFilters s filters doc) = [] := by
  induction filters with
  | nil => intro doc h; exact h
  | cons g rest ih =>
    intro doc h
    exact ih _ (find_remove_nil hm s _ doc (by simp [h]))

theorem remove_nil (F : Forest) : remove [] F = F := by
  induction F with
  | nil => rfl
  | text data next ih => simp [remove, ih]
  | elem id tag cls kids next ihk ihn => simp [remove, ihk, ihn]

theorem findIn_mono (m : Sel) (sel sel' : List Nat) (hsel : ∀ x ∈ sel, x ∈ sel') (F : Forest) :
    ∀ (anc : List View) (inside inside' first : Bool), (inside = true → inside' = true) →
      findIn m sel' anc inside' first F = [] → findIn m sel anc inside first F = [] := by
  induction F with
  | nil => intros; rfl
  | text data next ih =>
    intro anc inside inside' first hin h
    exact ih anc inside inside' first hin (by simpa [findIn] using h)
  | elem id tag cls kids next ihk ihn =>
    intro anc inside inside' first hin h
    simp only [findIn, List.append_eq_nil] at h ⊢
    refine ⟨⟨?_, ?_⟩, ihn anc inside inside' false hin h.2⟩
    · cases hi : inside with
      | false => simp
      | true =>
        have := h.1.1
        rw [hin hi] at this
        simpa using this
    · refine ihk _ (inside || decide (id ∈ sel)) (inside' || decide (id ∈ sel')) true ?_ h.1.2
      intro hx
      simp only [Bool.or_eq_true, decide_eq_true_eq] at hx ⊢
      rcases hx with hx | hx
      · exact Or.inl (hin hx)
      · exact Or.inr (hsel _ hx)

theorem find_firstOnly_nil (m : Sel) (s : Selection) (doc : Forest) (h : find m s doc = []) :
    find m (firstOnly s) doc = [] := by
  cases s with
  | document => exact h
  | nodes ids =>
    cases ids with
    | nil => exact h
    | cons id rest =>
      exact findIn_mono m [id] (id :: rest) (by simp) doc [] false false true (fun e => e) h

/-! ## The claims about filters -/

/-- C4, as claimed, fails. On the sample page with the selection `body` and the one
filter `p:first-child`, the filter removes the first paragraph; the second paragraph is
then the first child of `body`, it is the content handed to the converter, and it
matches the filter. -/
theorem filtered_content_can_match_filter :
    find (.tag "body".toList) .document examplePage = [3] ∧
      content (.nodes [3]) (applyFilters (.nodes [3]) [firstParagraph] examplePage) =
        .elem 5 "p".toList [] (.text "two".toList .nil) .nil ∧
      find firstParagraph (firstOnly (.nodes [3]))
        (applyFilters (.nodes [3]) [firstParagraph] examplePage) = [5] := by
  decide

/-- C4, amended. After all filters have been applied in request order, no element below
a node of the selection, and so no element of the content handed to the converter,
matches a filter of the list that uses neither `:first-child` nor `:empty`, whatever
the other filters are. -/
theorem structure_free_filter_leaves_no_match (s : Selection) (filters : List Sel)
    (doc : Forest) (f : Sel) (hf : f ∈ filters) (hs : f.structureFree = true) :
    find f s (applyFilters s filters doc) = [] ∧
      find f (firstOnly s) (applyFilters s filters doc) = [] := by
  have key : find f s (applyFilters s filters doc) = [] := by
    induction filters generalizing doc with
    | nil => simp at hf
    | cons g rest ih =>
      rcases List.mem_cons.1 hf with e | hmem
      · subst e
        exact find_applyFilters_nil hs s rest _
          (find_remove_nil hs s _ doc (fun _ hx => hx))
      · exact ih _ hmem
  exact ⟨key, find_firstOnly_nil f s _ key⟩

theorem structure_free_filter_leaves_no_match_witness :
    find (.tag "p".toList) (.nodes [3])
        (applyFilters (.nodes [3]) [.tag "p".toList, firstParagraph] examplePage) = [] ∧
      find (.tag "p".toList) (firstOnly (.nodes [3]))
        (applyFilters (.nodes [3]) [.tag "p".toList, firstParagraph] examplePage) = [] :=
  structure_free_filter_leaves_no_match (.nodes [3]) [.tag "p".toList, firstParagraph]
    examplePage (.tag "p".toList) (by decide) (by decide)

/-- C8, as claimed, fails. On the sample page, the filter `p:first-child` applied once
leaves the second paragraph; applied twice it removes that one too. -/
theorem first_child_filter_not_idempotent :
    content .document (applyFilters .document [firstParagraph] examplePage) ≠
      content .document (applyFilters .document [firstParagraph, firstParagraph] examplePage) := by
  decide

/-- C8, amended. For a filter that uses neither `:first-child` nor `:empty`, the filter
list `[f, f]` leaves the same document, and so the same filtered content, as `[f]`. -/
theorem structure_free_filter_idempotent (s : Selection) (doc : Forest) (f : Sel)
    (hs : f.structureFree = true) :
    applyFilters s [f, f] doc = applyFilters s [f] doc ∧
      content s (applyFilters s [f, f] doc) = content s (applyFilters s [f] doc) := by
  have h : applyFilters s [f, f] doc = applyFilters s [f] doc := by
    simp only [applyFilters]
    rw [find_remove_nil hs s _ doc (fun _ hx => hx), remove_nil]
  exact ⟨h, by rw [h]⟩

theorem structure_free_filter_idempotent_witness :
    applyFilters .document [.tag "p".toList, .tag "p".toList] examplePage =
        applyFilters .document [.tag "p".toList] examplePage ∧
      content .document (applyFilters .document [.tag "p".toList, .tag "p".toList] examplePage) =
        content .document (applyFilters .document [.tag "p".toList] examplePage) :=
  structure_free_filter_idempotent .document examplePage (.tag "p".toList) (by decide)

end HtmlToMd
